import Mathlib

/-!
Verification of the MTV porous-material QUBO formulation (`src/cost/mtv_cost.py`,
class `MTVcost`): the quadratic-program construction `to_quadratic_program`,
the bitstring decoder `interpret`, and the probability ranking performed by
`plot_distribution`.

Python dictionaries are modelled as association lists with `Option`-valued
lookup; a failed lookup (Python `KeyError`) and the other run-time failures of
the code are made explicit through the `PyError` type and `Except` results.
Rational numbers stand in for the real-valued lengths, weights and
probabilities (the code performs only field arithmetic on them).
-/

namespace MTV

/-- One edge of the input graph: endpoints `i`, `j` and the optional
`"weight"` entry of its networkx attribute dictionary (absent when the edge
carries no weight attribute). -/
structure Edge where
  i : ℕ
  j : ℕ
  weight : Option ℚ
deriving DecidableEq, Repr

/-- The input graph: nodes are `0, …, numNodes − 1` (networkx graphs used by
the program have a dense integer node range) and a duplicate-free edge list. -/
structure Graph where
  numNodes : ℕ
  edges : List Edge
deriving DecidableEq, Repr

/-- The run-time failures the Python code can raise, together with the error
names the specification's taxonomy uses (the latter never occur in the code;
they are listed so that statements about them can be expressed). -/
inductive PyError where
  | keyError (k : String)
  | zeroDivision
  | configurationError
  | missingAttributeError
  | decodingError
deriving DecidableEq, Repr

/-- Optimization direction of a docplex model. -/
inductive Sense where
  | minimize
  | maximize
deriving DecidableEq, Repr

/-- The assembled quadratic program: the number of binary decision variables,
the optimization direction, and the objective as a function of an assignment
`q : site → linker type → value` of the decision variables. -/
structure QuadraticProgram where
  numVars : ℕ
  sense : Sense
  objective : (ℕ → String → ℚ) → ℚ

/-- Python dictionary lookup `m[k]`, `none` on a missing key. -/
def lookupQ (m : List (String × ℚ)) (k : String) : Option ℚ :=
  (m.find? (fun p => p.1 == k)).map (fun p => p.2)

/-- The value a successful lookup returns (`0` placeholder on the error paths,
which `toQuadraticProgram` rules out before building the objective). -/
def valueOf (m : List (String × ℚ)) (k : String) : ℚ :=
  (lookupQ m k).getD 0

/-- Line 51: `q = {… mdl.binary_var … for i in range(n) for t in linkers}`.
The comprehension runs to completion before any cost term is evaluated, so
this many variables exist by the time any later lookup can fail. -/
def varsCreatedBeforeCostTerms (G : Graph) (linkers : List String) : ℕ :=
  G.numNodes * linkers.length

/-- Column sum of type `t`: `mdl.sum(q[f'q_{i}_{t}'] for i in range(n))`. -/
def siteSum (n : ℕ) (q : ℕ → String → ℚ) (t : String) : ℚ :=
  ((List.range n).map (fun i => q i t)).sum

/-- Line 53, the composition (ratio) term:
`200 * Σ_t (Σ_i q[i,t] − required_counts[t])²`. -/
def ratioCost (n : ℕ) (linkers : List String) (required : String → ℚ)
    (q : ℕ → String → ℚ) : ℚ :=
  200 * (linkers.map (fun t => (siteSum n q t - required t) ^ 2)).sum

/-- Lines 58-61, the value attached to edge `(i, j)`:
`Σ_{t1} Σ_{t2} (lengths[t1]·q[i,t1] + lengths[t2]·q[j,t2])` over the full
ordered cross product of linker types. -/
def edgeValue (linkers : List String) (lengths : String → ℚ) (i j : ℕ)
    (q : ℕ → String → ℚ) : ℚ :=
  (linkers.map (fun t1 =>
    (linkers.map (fun t2 =>
      lengths t1 * q i t1 + lengths t2 * q j t2)).sum)).sum

/-- Line 64: `mean_edge_value = mdl.sum(edge_values) / len(edges)`. -/
def meanEdgeValue (G : Graph) (linkers : List String) (lengths : String → ℚ)
    (q : ℕ → String → ℚ) : ℚ :=
  (G.edges.map (fun e => edgeValue linkers lengths e.i e.j q)).sum
    / (G.edges.length : ℚ)

/-- Lines 66-71, the balance term:
`Σ_(i,j) weight(i,j) · (edgeValue(i,j) − mean_edge_value)²`. -/
def balanceCost (G : Graph) (linkers : List String) (lengths : String → ℚ)
    (q : ℕ → String → ℚ) : ℚ :=
  (G.edges.map (fun e =>
    e.weight.getD 0 *
      (edgeValue linkers lengths e.i e.j q - meanEdgeValue G linkers lengths q) ^ 2)).sum

/-- Line 73, the occupancy term: `300 * Σ_i (Σ_t q[i,t] − 1)²`. -/
def occupancyCost (n : ℕ) (linkers : List String) (q : ℕ → String → ℚ) : ℚ :=
  300 * ((List.range n).map (fun i =>
    ((linkers.map (fun t => q i t)).sum - 1) ^ 2)).sum

/-- Line 75: `total_cost = ratio_cost + self.E * balance_cost + occupancy_cost`. -/
def totalCost (G : Graph) (required lengths : String → ℚ)
    (linkers : List String) (E : ℚ) (q : ℕ → String → ℚ) : ℚ :=
  ratioCost G.numNodes linkers required q
    + E * balanceCost G linkers lengths q
    + occupancyCost G.numNodes linkers q

/-- `MTVcost.to_quadratic_program` (lines 49-79).  The failure checks mirror
Python's evaluation order: the ratio term looks up `required_counts[t]` for
each linker type in catalogue order (line 53); the per-edge value generators
look up `lengths[t]` — only reached when at least one edge exists (lines
58-61); the mean divides by the edge count (line 64); the balance loop reads
each edge's `"weight"` attribute (lines 66-69).  The first failing step wins,
exactly as in the sequential Python code. -/
def toQuadraticProgram (G : Graph) (required_counts lengths : List (String × ℚ))
    (linkers : List String) (E : ℚ) : Except PyError QuadraticProgram :=
  match linkers.find? (fun t => (lookupQ required_counts t).isNone) with
  | some t => .error (.keyError t)
  | none =>
    match (if G.edges.isEmpty then none
           else linkers.find? (fun t => (lookupQ lengths t).isNone)) with
    | some t => .error (.keyError t)
    | none =>
      if G.edges.length = 0 then .error .zeroDivision
      else
        match G.edges.find? (fun e => e.weight.isNone) with
        | some _ => .error (.keyError "weight")
        | none =>
          .ok { numVars := varsCreatedBeforeCostTerms G linkers
              , sense := .minimize
              , objective :=
                  totalCost G (valueOf required_counts) (valueOf lengths) linkers E }

/-- Line 104's slice `bitstring[start_idx:end_idx]` with
`start_idx = i * num_linkers`: Python slicing truncates silently at the end of
the string, as `drop`/`take` do. -/
def siteEncoding (linkers : List String) (x : List Bool) (i : ℕ) : List Bool :=
  (x.drop (i * linkers.length)).take linkers.length

/-- Line 106: `[self.linkers[j] for j, bit in enumerate(site_encoding) if bit == '1']`.
`j` ranges over the slice's positions, which never exceed `|linkers|`, so the
`zip` enumerates exactly the pairs the comprehension reads. -/
def assignedLinkers (linkers : List String) (enc : List Bool) : List String :=
  (linkers.zip enc).filterMap (fun p => if p.2 then some p.1 else none)

/-- `MTVcost.interpret` (lines 81-107): decode a flat binary solution vector
into one label per site — the comma-joined assigned types, or `"-"` when the
site's slice holds no set bit.  No length validation is performed. -/
def interpret (numSites : ℕ) (linkers : List String) (x : List Bool) :
    List String :=
  (List.range numSites).map (fun i =>
    if assignedLinkers linkers (siteEncoding linkers x i) = [] then "-"
    else String.intercalate "," (assignedLinkers linkers (siteEncoding linkers x i)))

/-- Stable descending insertion by key `p`: `a` is placed before the first
element whose key is not greater than `p a`, so earlier input elements come
first among equal keys — the ordering contract of Python's stable
`sorted(…, reverse=True)` used on line 178. -/
def insertDesc {α : Type} (p : α → ℚ) (a : α) : List α → List α
  | [] => [a]
  | b :: bs => if p a < p b then b :: insertDesc p a bs else a :: b :: bs

/-- Stable sort by key `p`, descending.  Any stable descending sort produces
this very list, so it models `sorted(range(len(probabilities)), key=…,
reverse=True)` followed by the two index-gather comprehensions. -/
def sortDesc {α : Type} (p : α → ℚ) : List α → List α
  | [] => []
  | a :: as => insertDesc p a (sortDesc p as)

/-- Lines 170-180 of `plot_distribution`, up to the plotting calls: decode
every sample, pair it with its probability, and stably sort by probability in
descending order.  Nothing is dropped, merged or renormalized. -/
def rank (numSites : ℕ) (linkers : List String)
    (samples : List (List Bool × ℚ)) : List (List String × ℚ) :=
  sortDesc (fun a => a.2)
    (samples.map (fun s => (interpret numSites linkers s.1, s.2)))

/-- The objective exactly as the specification phrases it:
`200·Σ_t(Σ_i q[i,t] − required[t])²`
`+ E·Σ_(i,j) weight(i,j)·(edgeValue(i,j) − meanEdgeValue)²`
`+ 300·Σ_i(Σ_t q[i,t] − 1)²`, where `edgeValue(i,j)` is the sum over all
ordered type pairs `(t1,t2)` of `length[t1]·q[i,t1] + length[t2]·q[j,t2]` and
`meanEdgeValue` is the arithmetic mean of `edgeValue` over all edges. -/
def specObjective (G : Graph) (required lengths : String → ℚ)
    (linkers : List String) (E : ℚ) (q : ℕ → String → ℚ) : ℚ :=
  200 * (linkers.map (fun t =>
      (((List.range G.numNodes).map (fun i => q i t)).sum - required t) ^ 2)).sum
  + E * (G.edges.map (fun e =>
      e.weight.getD 0 *
        ((linkers.map (fun t1 => (linkers.map (fun t2 =>
            lengths t1 * q e.i t1 + lengths t2 * q e.j t2)).sum)).sum
         - (G.edges.map (fun e2 => (linkers.map (fun t1 => (linkers.map (fun t2 =>
              lengths t1 * q e2.i t1 + lengths t2 * q e2.j t2)).sum)).sum)).sum
             / (G.edges.length : ℚ)) ^ 2)).sum
  + 300 * ((List.range G.numNodes).map (fun i =>
      ((linkers.map (fun t => q i t)).sum - 1) ^ 2)).sum

/-- The per-site decode as the specification phrases it: the types `t` of the
catalogue, in catalogue order, whose bit at flattened index
`i·|types| + index(t)` is `1` (bits beyond the vector's end read as `0`). -/
def specSiteLabels (linkers : List String) (x : List Bool) (i : ℕ) :
    List String :=
  linkers.enum.filterMap (fun p =>
    if x.getD (i * linkers.length + p.1) false then some p.2 else none)

/-! ## Helper lemmas -/

theorem sum_map_sq_nonneg {α : Type} (f : α → ℚ) (l : List α) :
    0 ≤ (l.map (fun a => f a ^ 2)).sum := by
  induction l with
  | nil => simp
  | cons a as ih =>
    rw [List.map_cons, List.sum_cons]
    exact add_nonneg (sq_nonneg (f a)) ih

theorem sum_map_sq_eq_zero_iff {α : Type} (f : α → ℚ) (l : List α) :
    (l.map (fun a => f a ^ 2)).sum = 0 ↔ ∀ a ∈ l, f a = 0 := by
  induction l with
  | nil => simp
  | cons a as ih =>
    rw [List.map_cons, List.sum_cons,
      add_eq_zero_iff_of_nonneg (sq_nonneg (f a)) (sum_map_sq_nonneg f as),
      sq_eq_zero_iff, ih]
    exact (List.forall_mem_cons (p := fun x => f x = 0)).symm

theorem sum_map_binary_eq_countP {α : Type} (g : α → ℚ) (l : List α)
    (hg : ∀ a ∈ l, g a = 0 ∨ g a = 1) :
    (l.map g).sum = (l.countP (fun a => decide (g a = 1)) : ℚ) := by
  induction l with
  | nil => simp
  | cons a as ih =>
    rw [List.map_cons, List.sum_cons, List.countP_cons,
      ih (fun x hx => hg x (List.mem_cons_of_mem a hx))]
    rcases hg a (List.mem_cons_self a as) with h | h
    · rw [h]
      push_cast
      simp
    · rw [h]
      push_cast
      simp [add_comm]

/-! ## C3: the composition term vanishes exactly at the required counts -/

/-- C3: for a binary assignment `q`, the composition term
`200·Σ_t(Σ_i q[i,t] − required[t])²` is `0` iff, for every linker type of the
catalogue, the number of sites carrying that type equals its required count. -/
theorem ratioCost_eq_zero_iff (n : ℕ) (linkers : List String)
    (required : String → ℚ) (q : ℕ → String → ℚ)
    (hq : ∀ i t, q i t = 0 ∨ q i t = 1) :
    ratioCost n linkers required q = 0 ↔
      ∀ t ∈ linkers,
        (((List.range n).countP (fun i => decide (q i t = 1))) : ℚ) = required t := by
  unfold ratioCost
  rw [mul_eq_zero]
  have h200 : (200 : ℚ) ≠ 0 := by norm_num
  rw [or_iff_right h200, sum_map_sq_eq_zero_iff]
  refine forall_congr' (fun t => imp_congr_right (fun _ => ?_))
  rw [sub_eq_zero]
  unfold siteSum
  rw [sum_map_binary_eq_countP (fun i => q i t) (List.range n)
    (fun i _ => hq i t)]

/-- Witness for C3: two sites, one type `"A"` with required count `1`, and
the assignment that sets only site 0; the composition term is `0` and the
count condition holds. -/
theorem ratioCost_eq_zero_iff_witness :
    (∀ i t, (fun (i : ℕ) (_ : String) => if i = 0 then (1 : ℚ) else 0) i t = 0 ∨
            (fun (i : ℕ) (_ : String) => if i = 0 then (1 : ℚ) else 0) i t = 1) ∧
    (ratioCost 2 ["A"] (fun _ => 1)
        (fun i _ => if i = 0 then (1 : ℚ) else 0) = 0 ↔
      ∀ t ∈ ["A"],
        (((List.range 2).countP
            (fun i => decide ((if i = 0 then (1 : ℚ) else 0) = 1))) : ℚ) = 1) :=
  ⟨fun i _ => by by_cases h : i = 0 <;> simp [h],
   ratioCost_eq_zero_iff 2 ["A"] (fun _ => 1)
     (fun i _ => if i = 0 then (1 : ℚ) else 0)
     (fun i _ => by by_cases h : i = 0 <;> simp [h])⟩

/-! ## C4: the occupancy term vanishes exactly at one type per site -/

/-- C4: for a binary assignment `q`, the occupancy term
`300·Σ_i(Σ_t q[i,t] − 1)²` is `0` iff every site has exactly one catalogue
entry `t` with `q[i,t] = 1`. -/
theorem occupancyCost_eq_zero_iff (n : ℕ) (linkers : List String)
    (q : ℕ → String → ℚ)
    (hq : ∀ i t, q i t = 0 ∨ q i t = 1) :
    occupancyCost n linkers q = 0 ↔
      ∀ i < n, linkers.countP (fun t => decide (q i t = 1)) = 1 := by
  unfold occupancyCost
  rw [mul_eq_zero]
  have h300 : (300 : ℚ) ≠ 0 := by norm_num
  rw [or_iff_right h300, sum_map_sq_eq_zero_iff]
  constructor
  · intro h i hi
    have := h i (List.mem_range.mpr hi)
    rw [sub_eq_zero, sum_map_binary_eq_countP (fun t => q i t) linkers
      (fun t _ => hq i t)] at this
    exact_mod_cast this
  · intro h i hi
    rw [sub_eq_zero, sum_map_binary_eq_countP (fun t => q i t) linkers
      (fun t _ => hq i t)]
    exact_mod_cast h i (List.mem_range.mp hi)

/-- Witness for C4: one site, catalogue `["A","B"]`, assignment setting bit
`"A"` only; the occupancy term is `0` and every site has exactly one type. -/
theorem occupancyCost_eq_zero_iff_witness :
    (∀ i t, (fun (_ : ℕ) (t : String) => if t = "A" then (1 : ℚ) else 0) i t = 0 ∨
            (fun (_ : ℕ) (t : String) => if t = "A" then (1 : ℚ) else 0) i t = 1) ∧
    (occupancyCost 1 ["A", "B"]
        (fun _ t => if t = "A" then (1 : ℚ) else 0) = 0 ↔
      ∀ i < 1, (["A", "B"].countP
        (fun t => decide ((if t = "A" then (1 : ℚ) else 0) = 1))) = 1) :=
  ⟨fun _ t => by by_cases h : t = "A" <;> simp [h],
   occupancyCost_eq_zero_iff 1 ["A", "B"]
     (fun _ t => if t = "A" then (1 : ℚ) else 0)
     (fun _ t => by by_cases h : t = "A" <;> simp [h])⟩

/-! ## C6: an edgeless graph triggers a division by zero, not a
configuration error -/

/-- C6 (code bug): at the failing input — a 2-node graph with no edges and
otherwise valid catalogues — `to_quadratic_program` reaches
`mean_edge_value = mdl.sum(…) / len(self.G.edges)` with a zero edge count and
fails with a division by zero; no `ConfigurationError` is raised. -/
theorem toQuadraticProgram_no_edges_divides_by_zero :
    toQuadraticProgram ⟨2, []⟩ [("A", 1), ("B", 1)] [("A", 1), ("B", 2)]
        ["A", "B"] 1 = .error .zeroDivision ∧
    toQuadraticProgram ⟨2, []⟩ [("A", 1), ("B", 1)] [("A", 1), ("B", 2)]
        ["A", "B"] 1 ≠ .error .configurationError := by
  refine ⟨rfl, fun h => ?_⟩
  have e1 : toQuadraticProgram ⟨2, []⟩ [("A", 1), ("B", 1)] [("A", 1), ("B", 2)]
      ["A", "B"] 1 = .error .zeroDivision := rfl
  rw [e1] at h
  simp at h

/-! ## C7: a wrong-length vector decodes silently, no DecodingError -/

/-- C7 (code bug): at the failing input — 2 sites, catalogue `["A","B"]`, and
a raw vector of length 1 ≠ 2·2 — `interpret` raises nothing and returns the
truncated decode `["A", "-"]`; the specified `DecodingError` never occurs
(the code performs no length validation at all). -/
theorem interpret_wrong_length_no_error :
    interpret 2 ["A", "B"] [true] = ["A", "-"] := rfl

/-! ## C1: the assembled objective is the specified formula -/

/-- C1: for a graph with at least one edge whose every edge carries a weight,
and catalogues covering every linker type, `to_quadratic_program` succeeds
and returns a minimized program whose objective is exactly
`200·Σ_t(Σ_i q[i,t] − required[t])² + E·Σ_(i,j) w(i,j)·(edgeValue(i,j) − mean)²`
`+ 300·Σ_i(Σ_t q[i,t] − 1)²`, with the double-counted cross-product edge value
and the arithmetic-mean edge value of the specification. -/
theorem toQuadraticProgram_objective (G : Graph)
    (required_counts lengths : List (String × ℚ)) (linkers : List String)
    (E : ℚ)
    (hedge : G.edges ≠ [])
    (hrc : ∀ t ∈ linkers, (lookupQ required_counts t).isSome)
    (hlen : ∀ t ∈ linkers, (lookupQ lengths t).isSome)
    (hw : ∀ e ∈ G.edges, e.weight.isSome) :
    ∃ p, toQuadraticProgram G required_counts lengths linkers E = .ok p ∧
      p.sense = .minimize ∧
      ∀ q, p.objective q =
        specObjective G (valueOf required_counts) (valueOf lengths) linkers E q := by
  have h1 : linkers.find? (fun t => (lookupQ required_counts t).isNone) = none :=
    List.find?_eq_none.mpr (fun t ht => by
      simpa using Option.ne_none_iff_isSome.mpr (hrc t ht))
  have h2 : linkers.find? (fun t => (lookupQ lengths t).isNone) = none :=
    List.find?_eq_none.mpr (fun t ht => by
      simpa using Option.ne_none_iff_isSome.mpr (hlen t ht))
  have h3 : G.edges.find? (fun e => e.weight.isNone) = none :=
    List.find?_eq_none.mpr (fun e he => by
      simpa using Option.ne_none_iff_isSome.mpr (hw e he))
  have h4 : G.edges.isEmpty = false := by
    simpa [List.isEmpty_iff] using hedge
  have h5 : ¬(G.edges.length = 0) := by
    simpa [List.length_eq_zero] using hedge
  have key : toQuadraticProgram G required_counts lengths linkers E =
      .ok { numVars := varsCreatedBeforeCostTerms G linkers
          , sense := .minimize
          , objective :=
              totalCost G (valueOf required_counts) (valueOf lengths) linkers E } := by
    simp only [toQuadraticProgram, h1, h2, h3, h4, Bool.false_eq_true, if_false,
      if_neg h5]
  exact ⟨_, key, rfl, fun q => rfl⟩

/-- Witness for C1: a 2-node, 1-edge graph with catalogues over `["A","B"]`;
the hypotheses hold and the theorem instantiates. -/
theorem toQuadraticProgram_objective_witness :
    (Graph.mk 2 [Edge.mk 0 1 (some 1)]).edges ≠ [] ∧
    (∀ t ∈ ["A", "B"], (lookupQ [("A", 1), ("B", 1)] t).isSome) ∧
    (∀ t ∈ ["A", "B"], (lookupQ [("A", 1), ("B", 2)] t).isSome) ∧
    (∀ e ∈ (Graph.mk 2 [Edge.mk 0 1 (some 1)]).edges, e.weight.isSome) ∧
    (∃ p, toQuadraticProgram (Graph.mk 2 [Edge.mk 0 1 (some 1)])
        [("A", 1), ("B", 1)] [("A", 1), ("B", 2)] ["A", "B"] 1 = .ok p ∧
      p.sense = .minimize ∧
      ∀ q, p.objective q =
        specObjective (Graph.mk 2 [Edge.mk 0 1 (some 1)])
          (valueOf [("A", 1), ("B", 1)]) (valueOf [("A", 1), ("B", 2)])
          ["A", "B"] 1 q) :=
  ⟨by decide, by decide, by decide, by decide,
   toQuadraticProgram_objective (Graph.mk 2 [Edge.mk 0 1 (some 1)])
     [("A", 1), ("B", 1)] [("A", 1), ("B", 2)] ["A", "B"] 1
     (by decide) (by decide) (by decide) (by decide)⟩

/-! ## C8: a missing edge weight raises KeyError, not MissingAttributeError -/

/-- C8 counterexample: with a single weightless edge and otherwise valid
inputs, the code fails with Python's `KeyError` on the `"weight"` attribute
lookup, not with a `MissingAttributeError` as the claim states. -/
theorem missing_weight_not_missingAttributeError :
    toQuadraticProgram ⟨2, [⟨0, 1, none⟩]⟩ [("A", 1), ("B", 1)]
        [("A", 1), ("B", 2)] ["A", "B"] 1 = .error (.keyError "weight") ∧
    toQuadraticProgram ⟨2, [⟨0, 1, none⟩]⟩ [("A", 1), ("B", 1)]
        [("A", 1), ("B", 2)] ["A", "B"] 1 ≠ .error .missingAttributeError := by
  refine ⟨rfl, fun h => ?_⟩
  have e1 : toQuadraticProgram ⟨2, [⟨0, 1, none⟩]⟩ [("A", 1), ("B", 1)]
      [("A", 1), ("B", 2)] ["A", "B"] 1 = .error (.keyError "weight") := rfl
  rw [e1] at h
  simp at h

/-- C8 amended: if the catalogues cover every linker type, the graph has at
least one edge, and some edge lacks its weight attribute, the formulation
fails by raising `KeyError` for the `"weight"` key. -/
theorem missing_weight_raises_keyError (G : Graph)
    (required_counts lengths : List (String × ℚ)) (linkers : List String)
    (E : ℚ)
    (hedge : G.edges ≠ [])
    (hrc : ∀ t ∈ linkers, (lookupQ required_counts t).isSome)
    (hlen : ∀ t ∈ linkers, (lookupQ lengths t).isSome)
    (hw : ∃ e ∈ G.edges, e.weight = none) :
    toQuadraticProgram G required_counts lengths linkers E
      = .error (.keyError "weight") := by
  have h1 : linkers.find? (fun t => (lookupQ required_counts t).isNone) = none :=
    List.find?_eq_none.mpr (fun t ht => by
      simpa using Option.ne_none_iff_isSome.mpr (hrc t ht))
  have h2 : linkers.find? (fun t => (lookupQ lengths t).isNone) = none :=
    List.find?_eq_none.mpr (fun t ht => by
      simpa using Option.ne_none_iff_isSome.mpr (hlen t ht))
  have h4 : G.edges.isEmpty = false := by
    simpa [List.isEmpty_iff] using hedge
  have h5 : ¬(G.edges.length = 0) := by
    simpa [List.length_eq_zero] using hedge
  have h3 : (G.edges.find? (fun e => e.weight.isNone)).isSome := by
    rw [List.find?_isSome]
    obtain ⟨e, he, hnone⟩ := hw
    exact ⟨e, he, by simp [hnone]⟩
  obtain ⟨e, he⟩ := Option.isSome_iff_exists.mp h3
  simp only [toQuadraticProgram, h1, h2, h4, Bool.false_eq_true, if_false,
    if_neg h5, he]

/-- Witness for C8 amended: the weightless-edge input instantiates the
theorem. -/
theorem missing_weight_raises_keyError_witness :
    (Graph.mk 2 [Edge.mk 0 1 none]).edges ≠ [] ∧
    (∃ e ∈ (Graph.mk 2 [Edge.mk 0 1 none]).edges, e.weight = none) ∧
    toQuadraticProgram (Graph.mk 2 [Edge.mk 0 1 none]) [("A", 1), ("B", 1)]
      [("A", 1), ("B", 2)] ["A", "B"] 1 = .error (.keyError "weight") :=
  ⟨by decide, by decide,
   missing_weight_raises_keyError (Graph.mk 2 [Edge.mk 0 1 none])
     [("A", 1), ("B", 1)] [("A", 1), ("B", 2)] ["A", "B"] 1
     (by decide) (by decide) (by decide) (by decide)⟩

/-! ## C9: catalogue/target mismatches raise KeyError after variable
creation; extra keys are silently ignored -/

/-- C9 counterexample: the type `"C"` appears in `required_counts` and
`lengths` but not in `linker_types`, yet the formulation succeeds — no
`ConfigurationError` (nor any other failure) is raised. -/
theorem extra_type_not_configurationError :
    (toQuadraticProgram ⟨2, [⟨0, 1, some 1⟩]⟩
        [("A", 1), ("B", 1), ("C", 5)] [("A", 1), ("B", 2), ("C", 3)]
        ["A", "B"] 1).isOk = true ∧
    toQuadraticProgram ⟨2, [⟨0, 1, some 1⟩]⟩
        [("A", 1), ("B", 1), ("C", 5)] [("A", 1), ("B", 2), ("C", 3)]
        ["A", "B"] 1 ≠ .error .configurationError := by
  refine ⟨rfl, fun h => ?_⟩
  have e1 : (toQuadraticProgram ⟨2, [⟨0, 1, some 1⟩]⟩
      [("A", 1), ("B", 1), ("C", 5)] [("A", 1), ("B", 2), ("C", 3)]
      ["A", "B"] 1).isOk = true := rfl
  rw [h] at e1
  simp [Except.isOk, Except.toBool] at e1

/-- C9 amended: a linker type of the catalogue missing from
`required_counts` — or, when the graph has at least one edge, missing from
`lengths` — makes the formulation fail with Python's `KeyError` for some
catalogue type.  (The failure happens on line 53 resp. 58-61, after the
line-51 comprehension has already created all `numNodes · |linkers|`
decision variables; and a type present only in the dictionaries but not in
the catalogue triggers no error at all.) -/
theorem catalogue_mismatch_raises_keyError (G : Graph)
    (required_counts lengths : List (String × ℚ)) (linkers : List String)
    (E : ℚ)
    (h : (∃ t ∈ linkers, lookupQ required_counts t = none) ∨
         (G.edges ≠ [] ∧ (∀ t ∈ linkers, (lookupQ required_counts t).isSome) ∧
          ∃ t ∈ linkers, lookupQ lengths t = none)) :
    ∃ t ∈ linkers, toQuadraticProgram G required_counts lengths linkers E
      = .error (.keyError t) := by
  rcases h with h | ⟨hedge, hrc, h⟩
  · have hs : (linkers.find? (fun t => (lookupQ required_counts t).isNone)).isSome := by
      rw [List.find?_isSome]
      obtain ⟨t, ht, hnone⟩ := h
      exact ⟨t, ht, by simp [hnone]⟩
    obtain ⟨t, ht⟩ := Option.isSome_iff_exists.mp hs
    refine ⟨t, List.mem_of_find?_eq_some ht, ?_⟩
    simp only [toQuadraticProgram, ht]
  · have h1 : linkers.find? (fun t => (lookupQ required_counts t).isNone) = none :=
      List.find?_eq_none.mpr (fun t ht => by
        simpa using Option.ne_none_iff_isSome.mpr (hrc t ht))
    have h4 : G.edges.isEmpty = false := by
      simpa [List.isEmpty_iff] using hedge
    have hs : (linkers.find? (fun t => (lookupQ lengths t).isNone)).isSome := by
      rw [List.find?_isSome]
      obtain ⟨t, ht, hnone⟩ := h
      exact ⟨t, ht, by simp [hnone]⟩
    obtain ⟨t, ht⟩ := Option.isSome_iff_exists.mp hs
    refine ⟨t, List.mem_of_find?_eq_some ht, ?_⟩
    simp only [toQuadraticProgram, h1, h4, Bool.false_eq_true, if_false, ht]

/-- Witness for C9 amended: catalogue `["A","B"]` with `required_counts`
lacking `"B"`; the formulation fails with a `KeyError` for a catalogue
type. -/
theorem catalogue_mismatch_raises_keyError_witness :
    ((∃ t ∈ ["A", "B"], lookupQ [("A", 1)] t = none) ∨
     ((Graph.mk 2 [Edge.mk 0 1 (some 1)]).edges ≠ [] ∧
      (∀ t ∈ ["A", "B"], (lookupQ [("A", 1)] t).isSome) ∧
      ∃ t ∈ ["A", "B"], lookupQ [("A", 1), ("B", 2)] t = none)) ∧
    (∃ t ∈ ["A", "B"],
      toQuadraticProgram (Graph.mk 2 [Edge.mk 0 1 (some 1)]) [("A", 1)]
        [("A", 1), ("B", 2)] ["A", "B"] 1 = .error (.keyError t)) :=
  ⟨Or.inl (by decide),
   catalogue_mismatch_raises_keyError (Graph.mk 2 [Edge.mk 0 1 (some 1)])
     [("A", 1)] [("A", 1), ("B", 2)] ["A", "B"] 1 (Or.inl (by decide))⟩

/-! ## Decoding lemmas: the positional decode seen as a walk over absolute
bit indices -/

/-- Proof skeleton: walk the catalogue, reading the bit at the absolute
flattened index `j` for the head and `j + 1` onwards for the tail. -/
def decodeAux (L : List String) (f : ℕ → Bool) (j : ℕ) : List String :=
  match L with
  | [] => []
  | t :: ts => if f j then t :: decodeAux ts f (j + 1) else decodeAux ts f (j + 1)

theorem decodeAux_eq_nil (L : List String) (f : ℕ → Bool) (s : ℕ)
    (h : ∀ j, s ≤ j → f j = false) : decodeAux L f s = [] := by
  induction L generalizing s with
  | nil => rfl
  | cons t ts ih =>
    simp only [decodeAux, h s le_rfl, Bool.false_eq_true, if_false]
    exact ih (s + 1) (fun j hj => h j (Nat.le_of_succ_le hj))

theorem decodeAux_congr (L : List String) (f g : ℕ → Bool) (s : ℕ)
    (h : ∀ j, s ≤ j → j < s + L.length → f j = g j) :
    decodeAux L f s = decodeAux L g s := by
  induction L generalizing s with
  | nil => rfl
  | cons t ts ih =>
    have hs : f s = g s := h s le_rfl (by simp)
    simp only [decodeAux, hs]
    rw [ih (s + 1) (fun j h1 h2 => h j (Nat.le_of_succ_le h1) (by
      rw [List.length_cons]
      omega))]

theorem decodeAux_shift (L : List String) (g : ℕ → Bool) (c : ℕ) :
    ∀ k, decodeAux L (fun j => g (c + j)) k = decodeAux L g (c + k) := by
  induction L with
  | nil => intro k; rfl
  | cons t ts ih =>
    intro k
    simp only [decodeAux, ih (k + 1), Nat.add_assoc]

theorem enumFrom_filterMap_eq_decodeAux (L : List String) (f : ℕ → Bool) :
    ∀ k, (L.enumFrom k).filterMap
      (fun p => if f p.1 then some p.2 else none) = decodeAux L f k := by
  induction L with
  | nil => intro k; rfl
  | cons t ts ih =>
    intro k
    rw [List.enumFrom_cons, List.filterMap_cons]
    by_cases hf : f k
    · simp only [decodeAux, hf, if_true, ih (k + 1)]
    · simp only [decodeAux, hf, Bool.false_eq_true, if_false, ih (k + 1)]

theorem assignedLinkers_slice (x : List Bool) :
    ∀ (L : List String) (s : ℕ),
      assignedLinkers L ((x.drop s).take L.length)
        = decodeAux L (fun j => x.getD j false) s := by
  intro L
  induction L with
  | nil => intro s; rfl
  | cons t ts ih =>
    intro s
    by_cases hs : s < x.length
    · have hgd : x.getD s false = x[s] := by
        rw [List.getD_eq_getElem?_getD, List.getElem?_eq_getElem hs]
        rfl
      rw [List.length_cons, List.drop_eq_getElem_cons hs, List.take_succ_cons]
      simp only [assignedLinkers, List.zip_cons_cons, List.filterMap_cons,
        decodeAux, hgd]
      by_cases hb : x[s] = true
      · simp only [hb, if_true]
        rw [← ih (s + 1)]
        rfl
      · simp only [hb, Bool.false_eq_true, if_false]
        rw [← ih (s + 1)]
        rfl
    · have hd : x.drop s = [] := List.drop_of_length_le (Nat.le_of_not_lt hs)
      rw [hd, List.take_nil]
      have hz : assignedLinkers (t :: ts) [] = [] := rfl
      rw [hz, decodeAux_eq_nil]
      intro j hj
      rw [List.getD_eq_getElem?_getD,
        List.getElem?_eq_none (Nat.le_trans (Nat.le_of_not_lt hs) hj)]
      rfl

theorem specSiteLabels_eq_decodeAux (L : List String) (x : List Bool) (i : ℕ) :
    specSiteLabels L x i
      = decodeAux L (fun j => x.getD (i * L.length + j) false) 0 := by
  unfold specSiteLabels
  rw [show L.enum = L.enumFrom 0 from rfl,
    enumFrom_filterMap_eq_decodeAux L (fun j => x.getD (i * L.length + j) false) 0]

/-- The per-site decode performed by the code coincides with the
specification's positional decode at every site, for a vector of any
length. -/
theorem assignedLinkers_siteEncoding (L : List String) (x : List Bool)
    (i : ℕ) :
    assignedLinkers L (siteEncoding L x i) = specSiteLabels L x i := by
  rw [specSiteLabels_eq_decodeAux]
  have h1 : siteEncoding L x i = (x.drop (i * L.length)).take L.length := rfl
  rw [h1, assignedLinkers_slice x L (i * L.length)]
  exact (decodeAux_shift L (fun j => x.getD j false) (i * L.length) 0).symm

theorem interpret_eq_spec (n : ℕ) (L : List String) (x : List Bool) :
    interpret n L x = (List.range n).map (fun i =>
      if specSiteLabels L x i = [] then "-"
      else String.intercalate "," (specSiteLabels L x i)) := by
  unfold interpret
  exact List.map_congr_left (fun i _ => by rw [assignedLinkers_siteEncoding])

theorem getD_append_replicate_false (x : List Bool) (k j : ℕ) :
    (x ++ List.replicate k false).getD j false = x.getD j false := by
  rw [List.getD_eq_getElem?_getD, List.getD_eq_getElem?_getD]
  by_cases h : j < x.length
  · rw [List.getElem?_append_left h]
  · rw [List.getElem?_append_right (Nat.le_of_not_lt h),
      List.getElem?_eq_none (Nat.le_of_not_lt h), List.getElem?_replicate]
    by_cases h2 : j - x.length < k <;> simp [h2]

/-! ## C2: interpret is the positional decode -/

/-- C2: for `n` sites, a non-empty catalogue and a vector of exactly
`n·|types|` bits, `interpret` returns `n` strings; entry `i` is the
comma-joined list, in catalogue order, of the types whose bit at flattened
index `i·|types| + index(t)` is set, or `"-"` when none is. -/
theorem interpret_decodes (n : ℕ) (linkers : List String) (x : List Bool)
    (hne : linkers ≠ []) (hlen : x.length = n * linkers.length) :
    (interpret n linkers x).length = n ∧
    ∀ i, i < n → (interpret n linkers x).getD i ""
      = (if specSiteLabels linkers x i = [] then "-"
         else String.intercalate "," (specSiteLabels linkers x i)) := by
  constructor
  · rw [interpret_eq_spec, List.length_map, List.length_range]
  · intro i hi
    rw [interpret_eq_spec, List.getD_eq_getElem?_getD, List.getElem?_map,
      List.getElem?_range hi]
    rfl

/-- Witness for C2: two sites, catalogue `["A","B"]`, and the vector with
only the bit for site 0 / type `"A"` set, which decodes to `["A","-"]`. -/
theorem interpret_decodes_witness :
    (["A", "B"] : List String) ≠ [] ∧
    ([true, false, false, false] : List Bool).length = 2 * 2 ∧
    ((interpret 2 ["A", "B"] [true, false, false, false]).length = 2 ∧
     ∀ i, i < 2 → (interpret 2 ["A", "B"] [true, false, false, false]).getD i ""
       = (if specSiteLabels ["A", "B"] [true, false, false, false] i = [] then "-"
          else String.intercalate ","
            (specSiteLabels ["A", "B"] [true, false, false, false] i))) ∧
    interpret 2 ["A", "B"] [true, false, false, false] = ["A", "-"] :=
  ⟨by decide, by decide,
   interpret_decodes 2 ["A", "B"] [true, false, false, false]
     (by decide) (by decide), by decide⟩

/-! ## C10: interpret never fails, truncates short vectors and ignores
excess bits -/

/-- C10: `interpret` raises no error on a vector of any length: it always
returns exactly `numSites` strings; missing bits (a site's range reaching
past the vector's end) read as unassigned, so padding the vector with `0`
bits changes nothing; and bits at or beyond index `numSites·|types|` are
ignored. -/
theorem interpret_any_length (n : ℕ) (linkers : List String) (x : List Bool)
    (k : ℕ) :
    (interpret n linkers x).length = n ∧
    interpret n linkers (x ++ List.replicate k false) = interpret n linkers x ∧
    interpret n linkers x = interpret n linkers (x.take (n * linkers.length)) := by
  refine ⟨by rw [interpret_eq_spec, List.length_map, List.length_range], ?_, ?_⟩
  · rw [interpret_eq_spec, interpret_eq_spec]
    refine List.map_congr_left (fun i _ => ?_)
    have hspec : specSiteLabels linkers (x ++ List.replicate k false) i
        = specSiteLabels linkers x i := by
      rw [specSiteLabels_eq_decodeAux, specSiteLabels_eq_decodeAux]
      exact decodeAux_congr linkers _ _ 0 (fun j _ _ => by
        rw [getD_append_replicate_false])
    rw [hspec]
  · rw [interpret_eq_spec, interpret_eq_spec]
    refine List.map_congr_left (fun i hi => ?_)
    have hi' : i < n := List.mem_range.mp hi
    have hspec : specSiteLabels linkers x i
        = specSiteLabels linkers (x.take (n * linkers.length)) i := by
      rw [specSiteLabels_eq_decodeAux, specSiteLabels_eq_decodeAux]
      refine decodeAux_congr linkers _ _ 0 (fun j _ hj => ?_)
      have hlt : i * linkers.length + j < n * linkers.length := by
        have h1 : i * linkers.length + j < (i + 1) * linkers.length := by
          rw [Nat.add_mul, Nat.one_mul]
          omega
        exact Nat.lt_of_lt_of_le h1
          (Nat.mul_le_mul_right linkers.length (Nat.succ_le_of_lt hi'))
      rw [List.getD_eq_getElem?_getD, List.getD_eq_getElem?_getD,
        List.getElem?_take_of_lt hlt]
    rw [hspec]

/-! ## Sorting lemmas for the ranker -/

theorem insertDesc_perm {α : Type} (p : α → ℚ) (a : α) (l : List α) :
    (insertDesc p a l).Perm (a :: l) := by
  induction l with
  | nil => exact List.Perm.refl [a]
  | cons b bs ih =>
    simp only [insertDesc]
    by_cases hab : p a < p b
    · rw [if_pos hab]
      exact (List.Perm.cons b ih).trans (List.Perm.swap a b bs)
    · rw [if_neg hab]

theorem sortDesc_perm {α : Type} (p : α → ℚ) (l : List α) :
    (sortDesc p l).Perm l := by
  induction l with
  | nil => exact List.Perm.refl []
  | cons a as ih =>
    simp only [sortDesc]
    exact (insertDesc_perm p a (sortDesc p as)).trans (List.Perm.cons a ih)

theorem insertDesc_sorted {α : Type} (p : α → ℚ) (a : α) (l : List α)
    (h : l.Sorted (fun x y => p y ≤ p x)) :
    (insertDesc p a l).Sorted (fun x y => p y ≤ p x) := by
  induction l with
  | nil => simp [insertDesc]
  | cons b bs ih =>
    rw [List.sorted_cons] at h
    simp only [insertDesc]
    by_cases hab : p a < p b
    · rw [if_pos hab, List.sorted_cons]
      refine ⟨fun x hx => ?_, ih h.2⟩
      rcases List.mem_cons.mp ((insertDesc_perm p a bs).mem_iff.mp hx) with
        rfl | hxbs
      · exact le_of_lt hab
      · exact h.1 x hxbs
    · rw [if_neg hab, List.sorted_cons]
      refine ⟨fun x hx => ?_, List.sorted_cons.mpr h⟩
      rcases List.mem_cons.mp hx with rfl | hxbs
      · exact le_of_not_lt hab
      · exact le_trans (h.1 x hxbs) (le_of_not_lt hab)

theorem sortDesc_sorted {α : Type} (p : α → ℚ) (l : List α) :
    (sortDesc p l).Sorted (fun x y => p y ≤ p x) := by
  induction l with
  | nil => simp [sortDesc]
  | cons a as ih =>
    simp only [sortDesc]
    exact insertDesc_sorted p a (sortDesc p as) ih

theorem insertDesc_filter_key {α : Type} (p : α → ℚ) (c : ℚ) (a : α)
    (l : List α) :
    (insertDesc p a l).filter (fun x => decide (p x = c))
      = (a :: l).filter (fun x => decide (p x = c)) := by
  induction l with
  | nil => rfl
  | cons b bs ih =>
    simp only [insertDesc]
    by_cases hab : p a < p b
    · rw [if_pos hab, List.filter_cons, ih]
      by_cases hac : p a = c <;> by_cases hbc : p b = c
      · exact absurd hab (by rw [hac, hbc]; exact lt_irrefl c)
      · simp [List.filter_cons, hac, hbc]
      · simp [List.filter_cons, hac, hbc]
      · simp [List.filter_cons, hac, hbc]
    · rw [if_neg hab]

theorem sortDesc_filter_key {α : Type} (p : α → ℚ) (c : ℚ) (l : List α) :
    (sortDesc p l).filter (fun x => decide (p x = c))
      = l.filter (fun x => decide (p x = c)) := by
  induction l with
  | nil => rfl
  | cons a as ih =>
    simp only [sortDesc]
    rw [insertDesc_filter_key, List.filter_cons, List.filter_cons, ih]

/-! ## C5: the ranked output is a stable descending permutation -/

/-- C5: the ranked ensemble is a permutation of the interpreted input
entries (nothing dropped, merged or renormalized — duplicates included),
sorted by probability in descending order; and for every probability value,
the subsequence of entries carrying it is exactly the input subsequence, so
ties keep their original relative order. -/
theorem rank_ranks (n : ℕ) (linkers : List String)
    (samples : List (List Bool × ℚ)) :
    (rank n linkers samples).Perm
        (samples.map (fun s => (interpret n linkers s.1, s.2))) ∧
    (rank n linkers samples).Sorted (fun a b => b.2 ≤ a.2) ∧
    ∀ c : ℚ, (rank n linkers samples).filter (fun a => decide (a.2 = c))
      = (samples.map (fun s => (interpret n linkers s.1, s.2))).filter
          (fun a => decide (a.2 = c)) := by
  refine ⟨?_, ?_, fun c => ?_⟩
  · exact sortDesc_perm (fun a : List String × ℚ => a.2)
      (samples.map (fun s => (interpret n linkers s.1, s.2)))
  · exact sortDesc_sorted (fun a : List String × ℚ => a.2)
      (samples.map (fun s => (interpret n linkers s.1, s.2)))
  · exact sortDesc_filter_key (fun a : List String × ℚ => a.2) c
      (samples.map (fun s => (interpret n linkers s.1, s.2)))

end MTV
